/- Verification of the depth-profile resampling and subsampling logic of the
   Staircase_sampling_animation scripts.

   The embedded code comes from:
   - `plot_ITP_profile.py`: `interp_pts` (scipy `interp1d` + `np.arange`),
     the depth-window restriction (`data.query('p>lo')` then `data.query('p<hi')`)
     and the strided subsampling slice `p_new[i_offset::s_rate]`;
   - `ITP_data_to_csv.py`: `load_cormat_itp` (down-cast rejection).

   Floats are modelled as rationals (exact arithmetic); numpy arrays as lists.
   Python indices/strides in the slice are natural numbers (the scripts only
   ever produce nonnegative offsets `range(sample_rate)` and the positive
   literal stride `sample_rate = 40`). -/
import Mathlib

/-- Ceiling of a rational, clamped below at 0, computed from the reduced
numerator/denominator so that it evaluates by kernel reduction.  This is the
length that `np.arange(start, stop, step)` gives to its result:
`max(0, ceil((stop - start)/step))`. -/
def ratCeilPos (q : ℚ) : ℕ := (q.num.toNat + q.den - 1) / q.den

/-- Embedding of `np.arange(start, stop, step)` on exact rationals: the values
`start + k * step` for `0 ≤ k < max(0, ceil((stop - start)/step))`. -/
def arange (start stop step : ℚ) : List ℚ :=
  (List.range (ratCeilPos ((stop - start) / step))).map
    (fun (k : ℕ) => start + (k : ℚ) * step)

/-- Python's `min(p)` over a list (`None`-free): `none` on the empty list,
where Python raises `ValueError`. -/
def pyMin : List ℚ → Option ℚ
  | [] => none
  | a :: tl => some (tl.foldl min a)

/-- Python's `max(p)` over a list: `none` on the empty list. -/
def pyMax : List ℚ → Option ℚ
  | [] => none
  | a :: tl => some (tl.foldl max a)

/-- One-point evaluation of `scipy.interpolate.interp1d(p, v)(x)` (default
`kind='linear'`, `bounds_error=True`) on the zipped pairs `(depth, value)`.
`none` models the `ValueError`s: fewer than 2 data points, or `x` outside
`[p[0], p[-1]]`.  The depth axis is assumed already sorted, which holds for
every strictly monotonic profile (for unsorted input `interp1d` would first
argsort its data; no claim touches that case). -/
def interp1 : List (ℚ × ℚ) → ℚ → Option ℚ
  | [], _ => none
  | [_], _ => none
  | (d0, v0) :: (d1, v1) :: rest, x =>
    if x < d0 then none
    else if x ≤ d1 then some (v0 + (v1 - v0) * (x - d0) / (d1 - d0))
    else interp1 ((d1, v1) :: rest) x

/-- Vectorised call of an `interp1d` interpolant on a whole query axis:
`some` of the values if every query point is in range, else `none`
(the `ValueError` raised on the first out-of-bounds point). -/
def interpAll (pts : List (ℚ × ℚ)) : List ℚ → Option (List ℚ)
  | [] => some []
  | x :: xs =>
    match interp1 pts x, interpAll pts xs with
    | some y, some ys => some (y :: ys)
    | _, _ => none

/-- Error outcomes of `interp_pts`:
`tooFewPoints` is scipy's `ValueError: x and y arrays must have at least 2 entries`
(raised when building `interp1d(p, t)`);
`zeroStep` is the `ZeroDivisionError` of `np.arange(_, _, 0)`;
`outOfBounds` is the `ValueError` of evaluating outside the data range. -/
inductive InterpError
  | tooFewPoints
  | zeroStep
  | outOfBounds
deriving DecidableEq

/-- Embedding of `interp_pts(res, p, t, s)` from `plot_ITP_profile.py`:

    temp1 = interpolate.interp1d(p, t)
    salt1 = interpolate.interp1d(p, s)
    p_new = np.arange(min(p), max(p), res)
    t_new = temp1(p_new)
    s_new = salt1(p_new)
    return p_new, t_new, s_new

The `interp1d` constructors run first, so the too-few-points error precedes the
zero-step error of `arange`. -/
def interp_pts (res : ℚ) (p t s : List ℚ) :
    Except InterpError (List ℚ × List ℚ × List ℚ) :=
  match p with
  | a :: b :: tl =>
    if res = 0 then .error .zeroStep
    else
      let p_new := arange ((b :: tl).foldl min a) ((b :: tl).foldl max a) res
      match interpAll ((a :: b :: tl).zip t) p_new,
            interpAll ((a :: b :: tl).zip s) p_new with
      | some t_new, some s_new => .ok (p_new, t_new, s_new)
      | _, _ => .error .outOfBounds
  | _ => .error .tooFewPoints

/-- Fuel-indexed worker for the Python extended slice `xs[::stride]`: take the
head, skip the next `stride - 1` elements, repeat.  The fuel (instantiated with
`xs.length`, which bounds the number of emitted elements) keeps the recursion
structural so that concrete slices evaluate by kernel reduction. -/
def everyNthAux {α : Type} (stride : ℕ) : ℕ → List α → List α
  | 0, _ => []
  | _, [] => []
  | fuel + 1, a :: rest => a :: everyNthAux stride fuel (rest.drop (stride - 1))

/-- The Python extended slice `xs[::stride]` for a nonnegative step. -/
def everyNth {α : Type} (stride : ℕ) (xs : List α) : List α :=
  everyNthAux stride xs.length xs

/-- Embedding of the subsampling slice `p_new[i_offset::s_rate]` from
`plot_T_S_separate` / `plot_T_S_together` (nonnegative offset and step, the
only ones the scripts produce). -/
def sliceStep {α : Type} (xs : List α) (off stride : ℕ) : List α :=
  everyNth stride (xs.drop off)

/-- The one error a nonnegative-parameter slice can raise:
Python's `ValueError: slice step cannot be zero`. -/
inductive SliceError
  | stepZero
deriving DecidableEq

/-- The subsampling slice together with its error behaviour: `xs[off::stride]`
raises only for a zero step; any nonnegative offset is accepted. -/
def slice_subsample {α : Type} (xs : List α) (off stride : ℕ) :
    Except SliceError (List α) :=
  if stride = 0 then .error .stepZero else .ok (sliceStep xs off stride)

/-- The positions (into the interpolated profile) that the slice
`[off::stride]` selects from a profile of `n` samples: slice the index list
itself. -/
def sliceIndices (n off stride : ℕ) : List ℕ :=
  sliceStep (List.range n) off stride

/-- A row of the per-profile csv, in its column order `(temp, salt, p)`. -/
abbrev SampleRow : Type := ℚ × ℚ × ℚ

/-- Depth (pressure) column of a csv row. -/
def rowDepth (r : SampleRow) : ℚ := r.2.2

/-- Embedding of the depth-window restriction in `plot_T_S_separate` /
`plot_T_S_together`:

    if not isinstance(p_lims, type(None)):
        data = data.query('p>' + str(p_lims[0]))
        data = data.query('p<' + str(p_lims[1]))

Two successive strict-comparison row filters when limits are given, and the
unchanged data otherwise.  `pandas.query` returns an (possibly empty) frame and
never raises on an empty result. -/
def filter_depth_window (prof : List SampleRow) (w : Option (ℚ × ℚ)) :
    List SampleRow :=
  match w with
  | none => prof
  | some lims =>
    (prof.filter (fun r => decide (lims.1 < rowDepth r))).filter
      (fun r => decide (rowDepth r < lims.2))

/-- Error outcome of the loader core: `indexError` is the `IndexError` of
`p0[0]` / `p0[-1]` on an empty pressure array. -/
inductive LoadError
  | indexError
deriving DecidableEq

/-- Embedding of the core of `load_cormat_itp` from `ITP_data_to_csv.py`, after
the columns `te_adj`, `sa_adj`, `pr_filt` have been read into `temp0`, `salt0`,
`p0`:

    if p0[0] < p0[-1]:
        print('Skipping down-cast')
        return None
    out_dict = {'temp': temp0, 'salt': salt0, 'p': p0}
    return pd.DataFrame(out_dict)

`.ok none` is the skipped down-cast; `.ok (some rows)` the data frame with rows
in original order and columns `(temp, salt, p)`. -/
def load_cormat_itp (temp0 salt0 p0 : List ℚ) :
    Except LoadError (Option (List SampleRow)) :=
  match p0.head?, p0.getLast? with
  | some d0, some dn =>
    if d0 < dn then .ok none
    else .ok (some (temp0.zip (salt0.zip p0)))
  | _, _ => .error .indexError

instance {ε α : Type} [DecidableEq ε] [DecidableEq α] : DecidableEq (Except ε α) := fun x y =>
  match x, y with
  | .ok a, .ok b =>
    if h : a = b then isTrue (congrArg Except.ok h)
    else isFalse (fun c => h (Except.ok.inj c))
  | .error e, .error f =>
    if h : e = f then isTrue (congrArg Except.error h)
    else isFalse (fun c => h (Except.error.inj c))
  | .ok _, .error _ => isFalse (fun c => Except.noConfusion c)
  | .error _, .ok _ => isFalse (fun c => Except.noConfusion c)

/-! ### Arithmetic facts about the `arange` grid -/

lemma ratCeilPos_eq_zero {q : ℚ} (hq : q ≤ 0) : ratCeilPos q = 0 := by
  have hd : 0 < q.den := q.den_pos
  have hn : q.num ≤ 0 := Rat.num_nonpos.mpr hq
  unfold ratCeilPos
  rw [Int.toNat_of_nonpos hn]
  exact Nat.div_eq_of_lt (by omega)

lemma ratCeilPos_pos {q : ℚ} (hq : 0 < q) : 0 < ratCeilPos q := by
  have hd : 0 < q.den := q.den_pos
  have hn : 0 < q.num := Rat.num_pos.mpr hq
  show 1 ≤ (q.num.toNat + q.den - 1) / q.den
  rw [Nat.le_div_iff_mul_le hd]
  omega

lemma cast_lt_of_lt_ratCeilPos {q : ℚ} {k : ℕ} (hk : k < ratCeilPos q) : (k : ℚ) < q := by
  have hd : 0 < q.den := q.den_pos
  by_cases hn : q.num ≤ 0
  · exact absurd hk (by simp [ratCeilPos_eq_zero (Rat.num_nonpos.mp hn)])
  · push_neg at hn
    unfold ratCeilPos at hk
    have hk' : k + 1 ≤ (q.num.toNat + q.den - 1) / q.den := hk
    rw [Nat.le_div_iff_mul_le hd] at hk'
    have hmul : k * q.den < q.num.toNat := by
      rw [Nat.succ_mul] at hk'
      omega
    have hcast : (k : ℚ) * (q.den : ℚ) < (q.num : ℚ) := by
      have h1 : ((k * q.den : ℕ) : ℚ) < ((q.num.toNat : ℕ) : ℚ) := by
        exact_mod_cast hmul
      have h2 : ((q.num.toNat : ℕ) : ℚ) = ((q.num : ℤ) : ℚ) := by
        exact_mod_cast congrArg (fun z : ℤ => (z : ℚ)) (Int.toNat_of_nonneg hn.le)
      rw [h2] at h1
      exact_mod_cast h1
    have hq : q = (q.num : ℚ) / (q.den : ℚ) := (Rat.num_div_den q).symm
    rw [hq, lt_div_iff₀ (by exact_mod_cast hd)]
    exact hcast

lemma mem_arange_bounds {a b h x : ℚ} (hstep : 0 < h) (hx : x ∈ arange a b h) :
    a ≤ x ∧ x < b := by
  rw [arange] at hx
  simp only [List.mem_map, List.mem_range] at hx
  obtain ⟨k, hk, rfl⟩ := hx
  have hkq : (k : ℚ) < (b - a) / h := cast_lt_of_lt_ratCeilPos hk
  have hkh : (k : ℚ) * h < b - a := (lt_div_iff₀ hstep).mp hkq
  constructor
  · have : (0 : ℚ) ≤ (k : ℚ) * h := mul_nonneg (Nat.cast_nonneg k) hstep.le
    linarith
  · linarith

lemma arange_pairwise {a b h : ℚ} (hstep : 0 < h) :
    List.Pairwise (· < ·) (arange a b h) := by
  rw [arange, List.pairwise_map]
  refine (List.pairwise_lt_range _).imp ?_
  intro i j hij
  have : (i : ℚ) < (j : ℚ) := by exact_mod_cast hij
  have := mul_lt_mul_of_pos_right this hstep
  linarith

lemma arange_head {a b h : ℚ} (hstep : 0 < h) (hab : a < b) :
    (arange a b h).head? = some a := by
  have hL : 0 < ratCeilPos ((b - a) / h) :=
    ratCeilPos_pos (div_pos (by linarith) hstep)
  rw [arange, List.head?_eq_getElem?, List.getElem?_map, List.getElem?_range hL]
  norm_num

lemma arange_neg_step {a b h : ℚ} (hstep : h < 0) (hab : a ≤ b) :
    arange a b h = [] := by
  have : (b - a) / h ≤ 0 :=
    div_nonpos_iff.mpr (Or.inl ⟨by linarith, hstep.le⟩)
  simp [arange, ratCeilPos_eq_zero this]

/-! ### Python `min`/`max` via `foldl` -/

lemma foldl_min_eq_self (a : ℚ) (l : List ℚ) (hl : ∀ y ∈ l, a ≤ y) :
    l.foldl min a = a := by
  induction l with
  | nil => rfl
  | cons y tl ih =>
    have hay : min a y = a := min_eq_left (hl y (by simp))
    simp only [List.foldl_cons, hay]
    exact ih (fun z hz => hl z (by simp [hz]))

lemma foldl_min_le_self (a : ℚ) (l : List ℚ) : l.foldl min a ≤ a := by
  induction l generalizing a with
  | nil => exact le_refl a
  | cons y tl ih =>
    simp only [List.foldl_cons]
    exact le_trans (ih (min a y)) (min_le_left a y)

lemma le_foldl_max_self (a : ℚ) (l : List ℚ) : a ≤ l.foldl max a := by
  induction l generalizing a with
  | nil => exact le_refl a
  | cons y tl ih =>
    simp only [List.foldl_cons]
    exact le_trans (le_max_left a y) (ih (max a y))

lemma foldl_max_eq_getLast? (a : ℚ) (l : List ℚ)
    (hs : List.Pairwise (· ≤ ·) (a :: l)) :
    (a :: l).getLast? = some (l.foldl max a) := by
  induction l generalizing a with
  | nil => rfl
  | cons y tl ih =>
    have hay : max a y = y :=
      max_eq_right ((List.pairwise_cons.mp hs).1 y (by simp))
    rw [List.getLast?_cons_cons, ih y (List.pairwise_cons.mp hs).2]
    simp [hay]

lemma sorted_foldl_min (a : ℚ) (l : List ℚ)
    (h : List.Pairwise (· < ·) (a :: l)) : l.foldl min a = a :=
  foldl_min_eq_self a l (fun y hy => ((List.pairwise_cons.mp h).1 y hy).le)

lemma sorted_getLast?_foldl_max (a : ℚ) (l : List ℚ)
    (h : List.Pairwise (· < ·) (a :: l)) :
    (a :: l).getLast? = some (l.foldl max a) :=
  foldl_max_eq_getLast? a l (h.imp le_of_lt)

lemma lt_foldl_max_of_cons (a b : ℚ) (tl : List ℚ) (h : a < b) :
    a < (b :: tl).foldl max a := by
  have h1 : max a b = b := max_eq_right h.le
  calc a < b := h
    _ ≤ tl.foldl max b := le_foldl_max_self b tl
    _ = (b :: tl).foldl max a := by simp [List.foldl_cons, h1]

/-! ### Success of `interp1d` evaluation inside the data range -/

lemma interp1_isSome (d0 : ℚ) (tl v : List ℚ) (x dn : ℚ)
    (hne : tl ≠ []) (hlen : (d0 :: tl).length ≤ v.length)
    (hx0 : d0 ≤ x) (hlast : (d0 :: tl).getLast? = some dn) (hxn : x ≤ dn) :
    (interp1 ((d0 :: tl).zip v) x).isSome = true := by
  induction tl generalizing d0 v with
  | nil => exact absurd rfl hne
  | cons d1 rest ih =>
    match v with
    | [] => simp at hlen
    | [_] => simp at hlen
    | v0 :: v1 :: vtl =>
      show (interp1 ((d0, v0) :: (d1, v1) :: rest.zip vtl) x).isSome = true
      rw [interp1, if_neg (not_lt.mpr hx0)]
      by_cases hx1 : x ≤ d1
      · rw [if_pos hx1]
        rfl
      · rw [if_neg hx1]
        cases rest with
        | nil =>
          have : d1 = dn := by simpa using hlast
          exact absurd (this ▸ hxn) hx1
        | cons r rs =>
          have hgoal : (interp1 ((d1 :: r :: rs).zip (v1 :: vtl)) x).isSome = true := by
            refine ih d1 (v1 :: vtl) (by simp) ?_ (not_le.mp hx1).le ?_
            · simp only [List.length_cons] at hlen ⊢
              omega
            · rw [← List.getLast?_cons_cons]
              exact hlast
          exact hgoal

lemma interpAll_isSome (pts : List (ℚ × ℚ)) (l : List ℚ)
    (h : ∀ x ∈ l, (interp1 pts x).isSome = true) :
    ∃ ys, interpAll pts l = some ys := by
  induction l with
  | nil => exact ⟨[], rfl⟩
  | cons x xs ih =>
    obtain ⟨y, hy⟩ := Option.isSome_iff_exists.mp (h x (by simp))
    obtain ⟨ys, hys⟩ := ih (fun z hz => h z (by simp [hz]))
    exact ⟨y :: ys, by simp [interpAll, hy, hys]⟩

lemma interp_pts_ok_of_sorted (res a b : ℚ) (tl t s : List ℚ)
    (hres : 0 < res)
    (ht : (a :: b :: tl).length ≤ t.length) (hs : (a :: b :: tl).length ≤ s.length)
    (hmono : List.Pairwise (· < ·) (a :: b :: tl)) :
    ∃ t_new s_new,
      interp_pts res (a :: b :: tl) t s =
        .ok (arange a ((b :: tl).foldl max a) res, t_new, s_new) := by
  have hmin : (b :: tl).foldl min a = a := sorted_foldl_min a (b :: tl) hmono
  have hlast : (a :: b :: tl).getLast? = some ((b :: tl).foldl max a) :=
    sorted_getLast?_foldl_max a (b :: tl) hmono
  have hbnd : ∀ x ∈ arange a ((b :: tl).foldl max a) res,
      a ≤ x ∧ x < (b :: tl).foldl max a :=
    fun x hx => mem_arange_bounds hres hx
  have hT : ∀ x ∈ arange a ((b :: tl).foldl max a) res,
      (interp1 ((a :: b :: tl).zip t) x).isSome = true := fun x hx =>
    interp1_isSome a (b :: tl) t x ((b :: tl).foldl max a) (by simp) ht
      (hbnd x hx).1 hlast (hbnd x hx).2.le
  have hS : ∀ x ∈ arange a ((b :: tl).foldl max a) res,
      (interp1 ((a :: b :: tl).zip s) x).isSome = true := fun x hx =>
    interp1_isSome a (b :: tl) s x ((b :: tl).foldl max a) (by simp) hs
      (hbnd x hx).1 hlast (hbnd x hx).2.le
  obtain ⟨t_new, htN⟩ := interpAll_isSome _ _ hT
  obtain ⟨s_new, hsN⟩ := interpAll_isSome _ _ hS
  refine ⟨t_new, s_new, ?_⟩
  simp only [interp_pts, hmin]
  rw [if_neg (by exact fun c => absurd (c ▸ hres) (lt_irrefl 0)), htN, hsN]

/-! ### Index characterisation of the extended slice -/

lemma everyNthAux_getElem? {α : Type} (s : ℕ) (hs : 1 ≤ s) :
    ∀ (fuel : ℕ) (xs : List α) (k : ℕ), xs.length ≤ fuel →
      (everyNthAux s fuel xs)[k]? = xs[k * s]? := by
  intro fuel
  induction fuel with
  | zero =>
    intro xs k hlen
    have : xs = [] := List.length_eq_zero.mp (Nat.le_zero.mp hlen)
    subst this
    simp [everyNthAux]
  | succ fuel ih =>
    intro xs k hlen
    cases xs with
    | nil => simp [everyNthAux]
    | cons a rest =>
      cases k with
      | zero => simp [everyNthAux]
      | succ k =>
        have hdrop : (rest.drop (s - 1)).length ≤ fuel := by
          rw [List.length_drop]
          simp only [List.length_cons] at hlen
          omega
        have hidx : (k + 1) * s = (s - 1 + k * s) + 1 := by
          rw [Nat.succ_mul]
          omega
        calc (everyNthAux s (fuel + 1) (a :: rest))[k + 1]?
            = (everyNthAux s fuel (rest.drop (s - 1)))[k]? := by
              simp [everyNthAux]
          _ = (rest.drop (s - 1))[k * s]? := ih (rest.drop (s - 1)) k hdrop
          _ = rest[(s - 1) + k * s]? := List.getElem?_drop rest (s - 1) (k * s)
          _ = (a :: rest)[(k + 1) * s]? := by
              rw [hidx, List.getElem?_cons_succ]

lemma sliceStep_getElem? {α : Type} (xs : List α) (off s k : ℕ) (hs : 1 ≤ s) :
    (sliceStep xs off s)[k]? = xs[off + k * s]? := by
  calc (sliceStep xs off s)[k]?
      = (xs.drop off)[k * s]? :=
        everyNthAux_getElem? s hs (xs.drop off).length (xs.drop off) k le_rfl
    _ = xs[off + k * s]? := List.getElem?_drop xs off (k * s)

lemma sliceStep_of_ge_length {α : Type} (xs : List α) (off s : ℕ)
    (hoff : xs.length ≤ off) : sliceStep xs off s = [] := by
  rw [sliceStep, List.drop_eq_nil_of_le hoff]
  rfl

lemma mem_sliceIndices (n off s i : ℕ) (hs : 1 ≤ s) :
    i ∈ sliceIndices n off s ↔ ∃ k : ℕ, off + k * s = i ∧ i < n := by
  rw [List.mem_iff_getElem?]
  constructor
  · rintro ⟨j, hj⟩
    rw [sliceIndices, sliceStep_getElem? _ _ _ _ hs] at hj
    by_cases hlt : off + j * s < n
    · rw [List.getElem?_range hlt] at hj
      obtain rfl : off + j * s = i := Option.some.inj hj
      exact ⟨j, rfl, hlt⟩
    · rw [List.getElem?_eq_none (by simpa using not_lt.mp hlt)] at hj
      exact absurd hj (by simp)
  · rintro ⟨k, rfl, hlt⟩
    refine ⟨k, ?_⟩
    rw [sliceIndices, sliceStep_getElem? _ _ _ _ hs, List.getElem?_range hlt]

lemma filter_depth_window_eq_filter (prof : List SampleRow) (lo hi : ℚ) :
    filter_depth_window prof (some (lo, hi)) =
      prof.filter (fun r => decide (lo < rowDepth r ∧ rowDepth r < hi)) := by
  simp only [filter_depth_window]
  rw [List.filter_filter]
  refine List.filter_congr ?_
  intro r _
  by_cases h1 : lo < rowDepth r <;> by_cases h2 : rowDepth r < hi <;> simp [h1, h2]

/-! ### The claims -/

/-- C1: for every interpolated profile and every stride ≥ 1, the strided
subsamples at the phase offsets partition the profile: every sample index
belongs to the index set of exactly one offset in `[0, stride)` (pairwise
disjointness plus exactly-once coverage), and the subsample at any offset
consists precisely of the profile's samples at its selected indices, in
order. -/
theorem subsample_partition (xs : List ℚ) (stride : ℕ) (hs : 1 ≤ stride) :
    (∀ i : ℕ, i < xs.length →
      ∃! off : ℕ, off < stride ∧ i ∈ sliceIndices xs.length off stride) ∧
    (∀ off k : ℕ,
      (sliceStep xs off stride)[k]? =
        ((sliceIndices xs.length off stride)[k]?).bind fun i => xs[i]?) := by
  constructor
  · intro i hi
    refine ⟨i % stride, ⟨Nat.mod_lt i hs, ?_⟩, ?_⟩
    · rw [mem_sliceIndices _ _ _ _ hs]
      exact ⟨i / stride, Nat.mod_add_div' i stride, hi⟩
    · rintro off' ⟨hoff', hmem⟩
      rw [mem_sliceIndices _ _ _ _ hs] at hmem
      obtain ⟨k, hk, _⟩ := hmem
      calc off' = off' % stride := (Nat.mod_eq_of_lt hoff').symm
        _ = (off' + k * stride) % stride := (Nat.add_mul_mod_self_right off' k stride).symm
        _ = i % stride := by rw [hk]
  · intro off k
    rw [sliceStep_getElem? _ _ _ _ hs, sliceIndices, sliceStep_getElem? _ _ _ _ hs]
    by_cases hlt : off + k * stride < xs.length
    · rw [List.getElem?_range hlt]
      rfl
    · have h1 : xs[off + k * stride]? = none :=
        List.getElem?_eq_none (not_lt.mp hlt)
      have h2 : (List.range xs.length)[off + k * stride]? = none :=
        List.getElem?_eq_none (by simpa using not_lt.mp hlt)
      rw [h1, h2]
      rfl

/-- Witness for C1: the partition property at a concrete 5-sample profile with
stride 2, and the index-selection equation at offset 1, position 0. -/
theorem subsample_partition_witness :
    (∀ i : ℕ, i < ([3, 1, 4, 1, 5] : List ℚ).length →
      ∃! off : ℕ, off < 2 ∧ i ∈ sliceIndices ([3, 1, 4, 1, 5] : List ℚ).length off 2) ∧
    (sliceStep ([3, 1, 4, 1, 5] : List ℚ) 1 2)[0]? =
      ((sliceIndices ([3, 1, 4, 1, 5] : List ℚ).length 1 2)[0]?).bind
        (fun i => ([3, 1, 4, 1, 5] : List ℚ)[i]?) :=
  ⟨(subsample_partition [3, 1, 4, 1, 5] 2 (by decide)).1,
   (subsample_partition [3, 1, 4, 1, 5] 2 (by decide)).2 1 0⟩

/-- C2: for every strictly monotonic profile (of at least the two samples
interpolation needs) and every spacing `h > 0`, `interp_pts` succeeds and its
depth grid is strictly increasing, starts exactly at the minimum input depth,
and every grid value lies in `[d_min, d_max)` — in particular never outside
`[d_min, d_max]` (no extrapolation). -/
theorem interp_grid_monotone_bounded (res : ℚ) (p t s : List ℚ)
    (hres : 0 < res) (hlen : 2 ≤ p.length)
    (ht : p.length ≤ t.length) (hs : p.length ≤ s.length)
    (hmono : List.Pairwise (· < ·) p) :
    ∃ d_min d_max p_new t_new s_new,
      pyMin p = some d_min ∧ pyMax p = some d_max ∧
      interp_pts res p t s = .ok (p_new, t_new, s_new) ∧
      List.Pairwise (· < ·) p_new ∧
      p_new.head? = some d_min ∧
      ∀ x ∈ p_new, d_min ≤ x ∧ x < d_max := by
  match p, hlen with
  | a :: b :: tl, _ =>
    obtain ⟨tN, sN, hok⟩ := interp_pts_ok_of_sorted res a b tl t s hres ht hs hmono
    have hmin : (b :: tl).foldl min a = a := sorted_foldl_min a (b :: tl) hmono
    have hab : a < b := (List.pairwise_cons.mp hmono).1 b (by simp)
    have hamax : a < (b :: tl).foldl max a := lt_foldl_max_of_cons a b tl hab
    exact ⟨a, (b :: tl).foldl max a, arange a ((b :: tl).foldl max a) res, tN, sN,
      by simp [pyMin, hmin], rfl, hok, arange_pairwise hres,
      arange_head hres hamax, fun x hx => mem_arange_bounds hres hx⟩

/-- Witness for C2 at the concrete profile of C8. -/
theorem interp_grid_monotone_bounded_witness :
    ∃ d_min d_max p_new t_new s_new,
      pyMin [0, 10, 20] = some d_min ∧ pyMax [0, 10, 20] = some d_max ∧
      interp_pts 5 [0, 10, 20] [0, 1, 2] [0, 2, 4] = .ok (p_new, t_new, s_new) ∧
      List.Pairwise (· < ·) p_new ∧
      p_new.head? = some d_min ∧
      ∀ x ∈ p_new, d_min ≤ x ∧ x < d_max :=
  interp_grid_monotone_bounded 5 [0, 10, 20] [0, 1, 2] [0, 2, 4]
    (by norm_num) (by decide) (by decide) (by decide) (by decide)

/-- C3: for stride ≥ 1 and phase offset in `[0, stride)`, the subsample's k-th
entry is the profile's entry at index `phase_offset + k * stride` (so the
subsequence comes in index order); and on the concrete 8-point profile
`[10..17]` with stride 3, offset 1 it is the samples at indices 1, 4, 7. -/
theorem subsample_stride_indices (xs : List ℚ) (stride off : ℕ)
    (hs : 1 ≤ stride) (_hoff : off < stride) :
    (∀ k : ℕ, (sliceStep xs off stride)[k]? = xs[off + k * stride]?) ∧
    sliceStep ([10, 11, 12, 13, 14, 15, 16, 17] : List ℚ) 1 3 = [11, 14, 17] :=
  ⟨fun k => sliceStep_getElem? xs off stride k hs, by decide⟩

/-- Witness for C3 at the 8-point example with stride 3 and offset 1. -/
theorem subsample_stride_indices_witness :
    (sliceStep ([10, 11, 12, 13, 14, 15, 16, 17] : List ℚ) 1 3)[2]? =
      ([10, 11, 12, 13, 14, 15, 16, 17] : List ℚ)[1 + 2 * 3]? ∧
    sliceStep ([10, 11, 12, 13, 14, 15, 16, 17] : List ℚ) 1 3 = [11, 14, 17] :=
  ⟨(subsample_stride_indices [10, 11, 12, 13, 14, 15, 16, 17] 3 1
      (by decide) (by decide)).1 2,
   (subsample_stride_indices [10, 11, 12, 13, 14, 15, 16, 17] 3 1
      (by decide) (by decide)).2⟩

/-- C4 counterexample: a profile whose first depth (2) strictly exceeds its
last depth (1) is not rejected by the loader; it is returned as a data frame
with the samples in their original order. -/
theorem loader_keeps_first_depth_greater :
    (1 : ℚ) < 2 ∧
    load_cormat_itp [3, 4] [5, 6] [2, 1] = .ok (some [(3, 5, 2), (4, 6, 1)]) := by
  decide

/-- C4 (amended): the loader rejects — returns `None` for, before any
interpolation — exactly the profiles whose FIRST depth is strictly below their
LAST depth (the down-casts, whose depth increases over the recording); every
other profile is returned as a data frame with samples in original order,
never reversed. -/
theorem loader_downcast_rejection (temp0 salt0 p0 : List ℚ) (d0 dn : ℚ)
    (h0 : p0.head? = some d0) (hn : p0.getLast? = some dn) :
    (d0 < dn → load_cormat_itp temp0 salt0 p0 = .ok none) ∧
    (dn ≤ d0 → load_cormat_itp temp0 salt0 p0 =
      .ok (some (temp0.zip (salt0.zip p0)))) := by
  constructor
  · intro h
    simp only [load_cormat_itp, h0, hn]
    rw [if_pos h]
  · intro h
    simp only [load_cormat_itp, h0, hn]
    rw [if_neg (not_lt.mpr h)]

/-- Witness for C4 (amended): one rejected down-cast and one kept up-cast. -/
theorem loader_downcast_rejection_witness :
    load_cormat_itp [0, 0] [0, 0] [5, 9] = .ok none ∧
    load_cormat_itp [0, 0] [0, 0] [9, 5] = .ok (some [(0, 0, 9), (0, 0, 5)]) :=
  ⟨(loader_downcast_rejection [0, 0] [0, 0] [5, 9] 5 9
      (by decide) (by decide)).1 (by norm_num),
   (loader_downcast_rejection [0, 0] [0, 0] [9, 5] 9 5
      (by decide) (by decide)).2 (by norm_num)⟩

/-- C5 counterexample: with `phase_offset = 5 ≥ stride = 3` the subsampling
slice does not fail: it returns the strided samples from index 5 on. -/
theorem slice_offset_ge_stride_no_error :
    (3 : ℕ) ≤ 5 ∧
    slice_subsample ([10, 11, 12, 13, 14, 15, 16, 17] : List ℚ) 5 3 = .ok [15] := by
  decide

/-- C5 (amended): the slice-based subsampler validates nothing but the step:
it fails (Python `ValueError`) exactly when `stride = 0`; for any
`stride ≥ 1` and any nonnegative `phase_offset` — including
`phase_offset ≥ stride` — it succeeds and returns the samples at indices
`phase_offset + k * stride`, clamping nothing. -/
theorem slice_subsample_step_contract (xs : List ℚ) (off stride : ℕ) :
    (stride = 0 → slice_subsample xs off stride = .error .stepZero) ∧
    (1 ≤ stride → ∃ ys, slice_subsample xs off stride = .ok ys ∧
      ∀ k : ℕ, ys[k]? = xs[off + k * stride]?) := by
  constructor
  · intro h
    rw [slice_subsample, if_pos h]
  · intro hs
    refine ⟨sliceStep xs off stride, ?_,
      fun k => sliceStep_getElem? xs off stride k hs⟩
    rw [slice_subsample, if_neg (by omega)]

/-- Witness for C5 (amended): the zero-step failure and a successful slice
with offset beyond both stride and length. -/
theorem slice_subsample_step_contract_witness :
    slice_subsample ([7, 8, 9] : List ℚ) 0 0 = .error .stepZero ∧
    ∃ ys, slice_subsample ([7, 8, 9] : List ℚ) 4 2 = .ok ys ∧
      ∀ k : ℕ, ys[k]? = ([7, 8, 9] : List ℚ)[4 + k * 2]? :=
  ⟨(slice_subsample_step_contract [7, 8, 9] 0 0).1 rfl,
   (slice_subsample_step_contract [7, 8, 9] 4 2).2 (by decide)⟩

/-- C6 counterexample: with window `(10, 20)` and one sample at depth 5
(so no sample strictly inside the window), the depth-window filter returns
the empty profile — it does not fail with any error. -/
theorem filter_no_samples_returns_empty :
    filter_depth_window [(1, 1, 5)] (some (10, 20)) = [] := by
  decide

/-- C6 (amended): when no sample of the profile lies strictly inside the depth
window, the filter returns the empty profile; the code raises nothing (there is
no `EmptyResultError`-like failure at filter time). -/
theorem filter_empty_window_result (prof : List SampleRow) (lo hi : ℚ)
    (h : ∀ r ∈ prof, ¬(lo < rowDepth r ∧ rowDepth r < hi)) :
    filter_depth_window prof (some (lo, hi)) = [] := by
  rw [filter_depth_window_eq_filter]
  exact List.filter_eq_nil_iff.mpr (fun r hr => by simpa using h r hr)

/-- Witness for C6 (amended) at a one-sample profile below the window. -/
theorem filter_empty_window_result_witness :
    filter_depth_window [(2, 3, 30)] (some (10, 20)) = [] :=
  filter_empty_window_result [(2, 3, 30)] 10 20 (by decide)

/-- C7 counterexample: with spacing `h = -1 ≤ 0` and a strictly monotonic
3-sample profile, `interp_pts` does not fail: `np.arange` with a negative step
yields an empty grid and the call returns empty arrays. -/
theorem interp_pts_negative_res_succeeds :
    interp_pts (-1) [0, 10, 20] [0, 1, 2] [0, 2, 4] = .ok ([], [], []) := by
  norm_num [interp_pts, arange, ratCeilPos, interpAll, List.foldl, min_def, max_def]

/-- C7 (amended): `interp_pts` fails with the domain errors exactly when the
profile has fewer than 2 samples (scipy's too-few-entries `ValueError`, raised
first) or when `h = 0` (`ZeroDivisionError` in `np.arange`); for `h < 0` on a
profile of at least 2 samples it does NOT fail but returns an empty
interpolated profile; and it succeeds for every strictly monotonic profile of
at least 2 samples with `h > 0`. -/
theorem interp_pts_error_conditions (res : ℚ) (p t s : List ℚ) :
    (p.length < 2 → interp_pts res p t s = .error .tooFewPoints) ∧
    (2 ≤ p.length → res = 0 → interp_pts res p t s = .error .zeroStep) ∧
    (2 ≤ p.length → res < 0 → interp_pts res p t s = .ok ([], [], [])) ∧
    (2 ≤ p.length → p.length ≤ t.length → p.length ≤ s.length →
      List.Pairwise (· < ·) p → 0 < res →
      ∃ out, interp_pts res p t s = .ok out) := by
  refine ⟨?_, ?_, ?_, ?_⟩
  · intro h
    match p, h with
    | [], _ => rfl
    | [_], _ => rfl
    | a :: b :: tl, h => simp only [List.length_cons] at h; omega
  · intro hlen h0
    match p, hlen with
    | a :: b :: tl, _ =>
      simp only [interp_pts]
      rw [if_pos h0]
  · intro hlen hneg
    match p, hlen with
    | a :: b :: tl, _ =>
      have hle : (b :: tl).foldl min a ≤ (b :: tl).foldl max a :=
        le_trans (foldl_min_le_self a (b :: tl)) (le_foldl_max_self a (b :: tl))
      have harange :
          arange ((b :: tl).foldl min a) ((b :: tl).foldl max a) res = [] :=
        arange_neg_step hneg hle
      simp only [interp_pts, harange]
      rw [if_neg (ne_of_lt hneg)]
      rfl
  · intro hlen ht hs hmono hres
    match p, hlen, ht, hs, hmono with
    | a :: b :: tl, _, ht, hs, hmono =>
      obtain ⟨tN, sN, hok⟩ := interp_pts_ok_of_sorted res a b tl t s hres ht hs hmono
      exact ⟨_, hok⟩

/-- Witness for C7 (amended): one concrete input per clause. -/
theorem interp_pts_error_conditions_witness :
    interp_pts 5 [3] [3] [3] = .error .tooFewPoints ∧
    interp_pts 0 [0, 10] [0, 1] [0, 2] = .error .zeroStep ∧
    interp_pts (-2) [0, 10] [0, 1] [0, 2] = .ok ([], [], []) ∧
    ∃ out, interp_pts 2 [0, 10] [0, 1] [0, 2] = .ok out :=
  ⟨(interp_pts_error_conditions 5 [3] [3] [3]).1 (by decide),
   (interp_pts_error_conditions 0 [0, 10] [0, 1] [0, 2]).2.1 (by decide) rfl,
   (interp_pts_error_conditions (-2) [0, 10] [0, 1] [0, 2]).2.2.1
     (by decide) (by norm_num),
   (interp_pts_error_conditions 2 [0, 10] [0, 1] [0, 2]).2.2.2
     (by decide) (by decide) (by decide) (by decide) (by norm_num)⟩

/-- C8: the worked example — profile depths `[0, 10, 20]`, temperatures
`[0, 1, 2]`, salinities `[0, 2, 4]`, spacing `h = 5` — yields the depth grid
`[0, 5, 10, 15]` with linearly interpolated temperatures `[0, 1/2, 1, 3/2]`
(and salinities `[0, 1, 2, 3]`). -/
theorem interp_pts_example :
    interp_pts 5 [0, 10, 20] [0, 1, 2] [0, 2, 4] =
      .ok ([0, 5, 10, 15], [0, 1/2, 1, 3/2], [0, 1, 2, 3]) := by
  have h4 : ratCeilPos (4 : ℚ) = 4 := by decide
  norm_num [interp_pts, arange, h4, interpAll, interp1, List.foldl,
    min_def, max_def, List.range_succ]

/-- C9: the depth-window filter keeps exactly the rows whose depth satisfies
`min_depth < depth < max_depth` (both bounds strictly exclusive), and passes
the profile through unchanged when no window is given. -/
theorem filter_window_spec (prof : List SampleRow) (lo hi : ℚ) :
    filter_depth_window prof (some (lo, hi)) =
      prof.filter (fun r => decide (lo < rowDepth r ∧ rowDepth r < hi)) ∧
    filter_depth_window prof none = prof :=
  ⟨filter_depth_window_eq_filter prof lo hi, rfl⟩

/-- C10: for every stride ≥ 1 the slice-based subsampling is total — it
returns a value for every nonnegative phase offset (never an error), and when
the offset is at or beyond the profile length the result is the empty
subsample. -/
theorem slice_subsample_total (xs : List ℚ) (off stride : ℕ) (hs : 1 ≤ stride) :
    (∃ ys, slice_subsample xs off stride = .ok ys) ∧
    (xs.length ≤ off → slice_subsample xs off stride = .ok []) := by
  have hne : ¬ stride = 0 := by omega
  constructor
  · exact ⟨sliceStep xs off stride, by rw [slice_subsample, if_neg hne]⟩
  · intro hoff
    rw [slice_subsample, if_neg hne, sliceStep_of_ge_length xs off stride hoff]

/-- Witness for C10: a 2-sample profile sliced from offset 7. -/
theorem slice_subsample_total_witness :
    (∃ ys, slice_subsample ([4, 5] : List ℚ) 7 2 = .ok ys) ∧
    slice_subsample ([4, 5] : List ℚ) 7 2 = .ok [] :=
  ⟨(slice_subsample_total [4, 5] 7 2 (by decide)).1,
   (slice_subsample_total [4, 5] 7 2 (by decide)).2 (by decide)⟩
